import Mathlib

/-!
Verification of the WimPatcher edition-curation and patch pipeline.

This file gives a shallow embedding of the core operations of the program
(`modules/wim.py`, `modules/usb.py`, `wimpatcher.py`) and proves, or refutes,
the behavioural claims made about them.

Modelling conventions:
* The contents of a WIM container are abstracted as the ordered list of its
  editions (`List EditionData`); DISM's `/get-WimInfo` listing of such a state
  is `list_wim_indexes`, which numbers editions 1..N in order, exactly as DISM
  reports them (indexes renumber after a deletion because the listing is
  recomputed from the state).
* The `Index` field carried by parsed records is a decimal string in the
  source (`"1"`, `"2"`, ...); the model carries the natural number it denotes.
  Python dict equality on the four DISM fields (Index, Name, Description,
  Size) becomes structural equality of `WimRecord`.
* Side-effecting functions are modelled by explicit state passing or by the
  trace of external actions they issue; fallible code returns `Option`,
  `Except` or a dedicated result type.
-/

namespace WimPatcher

/-- The stable content of one edition inside a WIM container: the Name,
Description and Size fields DISM reports for it (sizes are the verbatim
strings such as "16,113,912,790 bytes"). -/
structure EditionData where
  name : String
  description : String
  size : String
deriving DecidableEq, Repr

/-- One record of the parsed `/get-WimInfo` listing: the dictionary
`{'Index': ..., 'Name': ..., 'Description': ..., 'Size': ...}` built by
`list_wim_indexes` in `modules/wim.py`.  `Index` holds the number denoted by
the decimal string in the dictionary. -/
structure WimRecord where
  Index : Nat
  Name : String
  Description : String
  Size : String
deriving DecidableEq, Repr

/-- The edition content carried by a listing record (everything but the
volatile index). -/
def recData (r : WimRecord) : EditionData := ⟨r.Name, r.Description, r.Size⟩

/-- Number the editions of a state `i, i+1, ...` in order, as DISM's listing
does starting from 1. -/
def mk_listing : Nat → List EditionData → List WimRecord
  | _, [] => []
  | i, e :: rest => ⟨i, e.name, e.description, e.size⟩ :: mk_listing (i + 1) rest

/-- Model of `list_wim_indexes` (`modules/wim.py`) as observed through the
abstract WIM state: DISM `/get-WimInfo` reports the current editions numbered
1..N in order, and the parser returns one record per edition.  (The string
parsing step itself is modelled separately as `list_wim_indexes_parse`.) -/
def list_wim_indexes (state : List EditionData) : List WimRecord := mk_listing 1 state

/-- Remove the edition whose current 1-based position is `idx`; positions are
counted from `i`.  Helper for `delete_wim_index`. -/
def delete_at : Nat → Nat → List EditionData → List EditionData
  | _, _, [] => []
  | i, idx, e :: rest => if i = idx then rest else e :: delete_at (i + 1) idx rest

/-- Model of `delete_wim_index` (`modules/wim.py`): DISM `/Delete-Image`
removes the edition at the given current index; all higher indexes renumber
(which the model reflects because `list_wim_indexes` recounts positions). -/
def delete_wim_index (state : List EditionData) (index : Nat) : List EditionData :=
  delete_at 1 index state

/-- Outcome of the `delete_other_editions` while loop: normal termination
with the final state and the listing records it deleted (in order), the
`StopIteration` escape of Python's `next` when no candidate exists, or
non-termination within the step budget. -/
inductive PruneResult where
  | ok (final : List EditionData) (deleted : List WimRecord)
  | stopIteration
  | diverge
deriving DecidableEq, Repr

/-- The while loop of `delete_other_editions` (`modules/wim.py`), fuelled:

    while len(new_info := list_wim_indexes(wim_file)) != 1:
        index_to_remove = next(info["Index"] for info in new_info if info != edition_to_keep)
        delete_wim_index(wim_file, index_to_remove)

Each loop iteration consumes one unit of fuel; `delete_other_editions` below
supplies fuel equal to the number of editions, which the theorems show is
never exhausted on the runs they cover. -/
def prune_loop (keep : WimRecord) : Nat → List EditionData → PruneResult
  | fuel, state =>
    if (list_wim_indexes state).length = 1 then .ok state []
    else
      match (list_wim_indexes state).find? (fun info => decide (info ≠ keep)) with
      | none => .stopIteration
      | some cand =>
        match fuel with
        | 0 => .diverge
        | fuel' + 1 =>
          match prune_loop keep fuel' (delete_wim_index state cand.Index) with
          | .ok final deleted => .ok final (cand :: deleted)
          | r => r

/-- Model of `delete_other_editions` (`modules/wim.py`).  The source first
mutates its argument in place (`edition_to_keep["Index"] = "1"`) and then runs
the pruning loop with the mutated record; since Python passes the caller's
dictionary by reference, the model returns the mutated record alongside the
loop's outcome so the caller-visible effect is explicit. -/
def delete_other_editions (state : List EditionData) (edition_to_keep : WimRecord) :
    PruneResult × WimRecord :=
  (prune_loop { edition_to_keep with Index := 1 } state.length state,
   { edition_to_keep with Index := 1 })

/-! ### The metadata-listing parser (`list_wim_indexes`, string level)

The parsing step of `list_wim_indexes` works on the raw text of DISM's
`/get-WimInfo` output:

    indexes = result.stdout.split("\n\n")[2:-1]
    return [dict(tuple(map(str.strip, kv.split(":"))) for kv in index.split("\n"))
            for index in indexes]

Strings are modelled as explicit character lists so the splitting functions
can be reasoned about directly. -/

/-- Character-list strings, the representation used by the parser model. -/
abbrev Chars := List Char

/-- Python's `str.split(sep)` for a one-character separator: cut at every
occurrence of `sep`; adjacent separators produce empty pieces, the empty
string yields one empty piece. -/
def splitOnChar (sep : Char) : Chars → List Chars
  | [] => [[]]
  | c :: rest =>
    if c = sep then [] :: splitOnChar sep rest
    else
      match splitOnChar sep rest with
      | [] => [[c]]
      | piece :: pieces => (c :: piece) :: pieces

/-- Python's `str.split("\n\n")`: scan left to right, cutting at each
non-overlapping occurrence of two consecutive newline characters. -/
def splitOnNlNl : Chars → List Chars
  | [] => [[]]
  | [c] => [[c]]
  | c :: d :: rest =>
    if c = '\n' ∧ d = '\n' then [] :: splitOnNlNl rest
    else
      match splitOnNlNl (d :: rest) with
      | [] => [[c]]
      | piece :: pieces => (c :: piece) :: pieces

/-- Whether a character list contains two consecutive newlines (an occurrence
of the `"\n\n"` block delimiter). -/
def hasNlNl : Chars → Bool
  | [] => false
  | [_] => false
  | c :: d :: rest => if c = '\n' ∧ d = '\n' then true else hasNlNl (d :: rest)

/-- Python's `str.strip()`: drop whitespace from both ends. -/
def stripChars (s : Chars) : Chars :=
  ((s.dropWhile Char.isWhitespace).reverse.dropWhile Char.isWhitespace).reverse

/-- One line of a block: `tuple(map(str.strip, kv.split(":")))` fed to
`dict(...)`, which accepts exactly key/value pairs; `none` models the
`ValueError` Python raises when the line does not split into exactly two
parts. -/
def parse_kv (kv : Chars) : Option (Chars × Chars) :=
  match (splitOnChar ':' kv).map stripChars with
  | [k, v] => some (k, v)
  | _ => none

/-- Parse every line of a block; a failing line aborts the whole parse (the
`ValueError` propagating out of the comprehension). -/
def parse_lines : List Chars → Option (List (Chars × Chars))
  | [] => some []
  | line :: rest =>
    match parse_kv line, parse_lines rest with
    | some kv, some kvs => some (kv :: kvs)
    | _, _ => none

/-- One delimiter-separated block: split into lines and parse each as a
key/value pair. -/
def parse_block (block : Chars) : Option (List (Chars × Chars)) :=
  parse_lines (splitOnChar '\n' block)

/-- Parse every block; a failing block aborts the whole parse. -/
def parse_blocks : List Chars → Option (List (List (Chars × Chars)))
  | [] => some []
  | b :: rest =>
    match parse_block b, parse_blocks rest with
    | some d, some ds => some (d :: ds)
    | _, _ => none

/-- The parsing step of `list_wim_indexes` (`modules/wim.py`) applied to the
raw `result.stdout` text: split on blank lines, discard the first two pieces
and the last one (`[2:-1]`), and parse each remaining block into a record of
trimmed key/value pairs. -/
def list_wim_indexes_parse (stdout : Chars) : Option (List (List (Chars × Chars))) :=
  parse_blocks (((splitOnNlNl stdout).drop 2).dropLast)

/-- Lookup in a record built by Python's `dict(pairs)`: the value of the last
pair carrying the key wins. -/
def dictGet (d : List (Chars × Chars)) (k : Chars) : Option Chars :=
  ((d.filter (fun kv => decide (kv.1 = k))).getLast?).map (fun kv => kv.2)

/-- The numeric value of a decimal digit character. -/
def charDigit (c : Char) : Nat := c.toNat - 48

/-- The natural number a character list denotes as a decimal numeral
(`none` when empty or containing a non-digit); used to state that a
record's Index field holds a given edition number. -/
def decimalValue : Chars → Option Nat
  | [] => none
  | cs =>
    if cs.all (fun c => decide ('0' ≤ c ∧ c ≤ '9')) then
      some (cs.foldl (fun acc c => 10 * acc + charDigit c) 0)
    else none

/-- Interleave a separator between pieces (Python's `sep.join`). -/
def joinSep (sep : Chars) : List Chars → Chars
  | [] => []
  | p :: ps =>
    match ps with
    | [] => p
    | _ :: _ => p ++ sep ++ joinSep sep ps

/-- Build one `key : value` line of a well-formed listing; any surrounding
whitespace belongs to `k` and `v` themselves. -/
def mk_line (k v : Chars) : Chars := k ++ ':' :: v

/-- Build one edition block from its key/value lines. -/
def mk_block (kvs : List (Chars × Chars)) : Chars :=
  joinSep ['\n'] (kvs.map fun kv => mk_line kv.1 kv.2)

/-- A well-formed DISM `/get-WimInfo` output: two header pieces, one
delimiter-separated block per edition, and a footer piece. -/
def mk_dism_output (h1 h2 : Chars) (blocks : List (List (Chars × Chars)))
    (footer : Chars) : Chars :=
  joinSep ['\n', '\n'] ([h1, h2] ++ blocks.map mk_block ++ [footer])

/-! ### Edition selection (`wimpatcher.py`) -/

/-- Model of `display_wim_editions` (`wimpatcher.py`): build the
`valid_indexes` mapping by `valid_indexes[info["Name"]] = info` over the
listing in order, so a later record overwrites an earlier one with the same
name.  The dictionary is modelled by its lookup function. -/
def display_wim_editions (wim_info : List WimRecord) : String → Option WimRecord :=
  wim_info.foldl
    (fun valid_indexes info => fun name =>
      if name = info.Name then some info else valid_indexes name)
    (fun _ => none)

/-- Model of `select_edition` (`wimpatcher.py`): resolve the configured
selector against `valid_indexes`; `none` models the `ValueError` raised for
an unresolved selector, and `some r` is the record then passed to
`delete_other_editions`. -/
def select_edition (wim_info : List WimRecord) (selected_edition : String) :
    Option WimRecord :=
  display_wim_editions wim_info selected_edition

/-! ### The patch pipeline (`patch_wim`, `wimpatcher.py`) and the mount
lifecycle (`mount_wim` / `unmount_wim`, `modules/wim.py`) -/

/-- The externally visible steps of `patch_wim`. -/
inductive PStep where
  | listIndexes
  | selectEdition
  | mount
  | customize
  | optimizeImage
  | unmount
  | optimizeFile
deriving DecidableEq, Repr

/-- Environment of one `patch_wim` run: whether DISM reports success for the
mount (a signal the source never reads), and whether each fallible step
completes without raising. -/
structure StepOutcomes where
  mount_dism_success : Bool
  select_edition_ok : Bool
  customize_ok : Bool
  optimize_image_ok : Bool
deriving DecidableEq, Repr

/-- Model of `mount_wim` (`modules/wim.py`): it creates a temporary mount
directory, clears the read-only attribute, starts the DISM mount and waits
for it, then returns the mount path.  No code inspects `proc`'s exit status
or output for a success signal, so the returned value does not depend on
`dism_success`. -/
def mount_wim (mount_path : String) (dism_success : Bool) : Except String String :=
  Except.ok mount_path

/-- The DISM command line issued by `unmount_wim` (`modules/wim.py`); the
unmount always passes `/commit`. -/
def unmount_wim_args (wim_mount_path : String) : List String :=
  ["DISM", "/unmount-wim", "/MountDir:" ++ wim_mount_path, "/commit"]

/-- Model of `patch_wim` (`wimpatcher.py`): the trace of steps executed and
whether the run ended by propagating an exception.

    wim_info = list_wim_indexes(wim_file)
    if len(wim_info) >= 1:
        select_edition(wim_info, wim_file)
    wim_mount_path = mount_wim(wim_file)
    try:
        <customize: write test.txt into the mount>
        optimize_wim_image(wim_mount_path)
    finally:
        unmount_wim(wim_mount_path)
    optimize_wim_file(wim_file)

A step appears in the trace when it is invoked (even if it raises). -/
def patch_wim_run (listing_len : Nat) (o : StepOutcomes) : List PStep × Bool :=
  let t1 := [PStep.listIndexes] ++ (if 1 ≤ listing_len then [PStep.selectEdition] else [])
  if 1 ≤ listing_len ∧ o.select_edition_ok = false then (t1, true)
  else
    let t2 := t1 ++ [PStep.mount, PStep.customize]
    if o.customize_ok = false then (t2 ++ [PStep.unmount], true)
    else if o.optimize_image_ok = false then
      (t2 ++ [PStep.optimizeImage, PStep.unmount], true)
    else (t2 ++ [PStep.optimizeImage, PStep.unmount, PStep.optimizeFile], false)

/-! ### The media provisioner (`prepare_usb_drive`, `modules/usb.py`) -/

/-- The destructive actions `prepare_usb_drive` can issue. -/
inductive UsbAction where
  | format_drive (drive_letter : String)
  | extract_iso_to (iso_file : String) (dest : String)
deriving DecidableEq, Repr

/-- Model of `prepare_usb_drive` (`modules/usb.py`):

    home_drive = pathlib.Path.home().drive
    if drive_path == home_drive:
        raise ValueError(f"USB Drive cannot be '{home_drive}'")
    format_usb_drive(drive_path[1])
    extract_iso(iso_file, drive_path)

`Except.error` models the raised `ValueError`; on the other branch the
function issues the repartition/format and the mirror copy.  Note the guard
is plain string equality. -/
def prepare_usb_drive (home_drive iso_file drive_path : String) :
    Except String (List UsbAction) :=
  if drive_path = home_drive then
    Except.error ("USB Drive cannot be " ++ home_drive)
  else
    Except.ok [UsbAction.format_drive ((drive_path.drop 1).take 1),
               UsbAction.extract_iso_to iso_file drive_path]

/-! ### Container optimization (`optimize_wim_file`, `modules/wim.py`) -/

/-- The file-system operations `optimize_wim_file` issues. -/
inductive FsAction where
  | rename (src dst : String)
  | exportImage (src dst : String)
  | remove (path : String)
deriving DecidableEq, Repr

/-- Model of `optimize_wim_file` (`modules/wim.py`) as the ordered trace of
operations it performs.  `old_wim` is
`os.path.join(os.path.dirname(wim_file), basename(wim_file) + ".old")`,
i.e. the same path with `".old"` appended. -/
def optimize_wim_file (wim_file : String) : List FsAction :=
  let old_wim := wim_file ++ ".old"
  [FsAction.rename wim_file old_wim,
   FsAction.exportImage old_wim wim_file,
   FsAction.remove old_wim]

/-- Effect of one file-system operation on the set of present files (a file
list): rename moves, export creates its destination, remove deletes. -/
def applyFs (files : List String) : FsAction → List String
  | .rename src dst => files.erase src ++ [dst]
  | .exportImage _ dst => files ++ [dst]
  | .remove p => files.erase p

/-- Run a trace of file-system operations from an initial file list. -/
def runFs (files : List String) (acts : List FsAction) : List String :=
  acts.foldl applyFs files

/-! ## Lemmas about the pruning loop -/

theorem mk_listing_length (s : List EditionData) : ∀ i, (mk_listing i s).length = s.length := by
  induction s with
  | nil => intro i; rfl
  | cons e rest ih => intro i; simp [mk_listing, ih]

theorem list_wim_indexes_length (s : List EditionData) :
    (list_wim_indexes s).length = s.length := mk_listing_length s 1

theorem record_ne_of_data_ne {e d : EditionData} (h : e ≠ d) (i j : Nat) :
    (⟨i, e.name, e.description, e.size⟩ : WimRecord) ≠ ⟨j, d.name, d.description, d.size⟩ := by
  intro hc
  apply h
  cases e; cases d
  simp only [WimRecord.mk.injEq] at hc
  simp [EditionData.mk.injEq, hc.2.1, hc.2.2.1, hc.2.2.2]

/-- When the first edition differs in content from the kept one, the loop's
`next(...)` picks the first listing record. -/
theorem find_ne_head {e d : EditionData} (rest : List EditionData) (h : e ≠ d) :
    (list_wim_indexes (e :: rest)).find?
      (fun info => decide (info ≠ (⟨1, d.name, d.description, d.size⟩ : WimRecord))) =
    some ⟨1, e.name, e.description, e.size⟩ := by
  have : (⟨1, e.name, e.description, e.size⟩ : WimRecord) ≠
      ⟨1, d.name, d.description, d.size⟩ := record_ne_of_data_ne h 1 1
  simp [list_wim_indexes, mk_listing, List.find?_cons, this]

/-- When the first edition is the kept one, the loop's `next(...)` skips it
(it equals the mutated keep record, index 1 included) and picks the second
listing record. -/
theorem find_keep_head (d f : EditionData) (rest : List EditionData) :
    (list_wim_indexes (d :: f :: rest)).find?
      (fun info => decide (info ≠ (⟨1, d.name, d.description, d.size⟩ : WimRecord))) =
    some ⟨2, f.name, f.description, f.size⟩ := by
  have h2 : (⟨2, f.name, f.description, f.size⟩ : WimRecord) ≠
      ⟨1, d.name, d.description, d.size⟩ := by
    intro hc
    simp only [WimRecord.mk.injEq] at hc
    exact absurd hc.1 (by decide)
  simp [list_wim_indexes, mk_listing, List.find?_cons, h2]

theorem delete_at_one (e : EditionData) (rest : List EditionData) :
    delete_at 1 1 (e :: rest) = rest := by
  simp [delete_at]

theorem delete_at_two (e f : EditionData) (rest : List EditionData) :
    delete_at 1 2 (e :: f :: rest) = e :: rest := by
  simp [delete_at]

/-- Exit equation of the while loop: a one-record listing stops it at once,
with no deletion issued. -/
theorem prune_loop_done (keep : WimRecord) (fuel : Nat) (state : List EditionData)
    (hlen : (list_wim_indexes state).length = 1) :
    prune_loop keep fuel state = .ok state [] := by
  rw [prune_loop, if_pos hlen]

/-- Step equation of the while loop: with more than one record listed and a
candidate found, one iteration deletes the candidate's index and records the
candidate. -/
theorem prune_loop_step (keep : WimRecord) (fuel : Nat) (state : List EditionData)
    (hlen : (list_wim_indexes state).length ≠ 1) (cand : WimRecord)
    (hfind : (list_wim_indexes state).find? (fun info => decide (info ≠ keep)) = some cand) :
    prune_loop keep (fuel + 1) state =
      match prune_loop keep fuel (delete_wim_index state cand.Index) with
      | .ok final deleted => .ok final (cand :: deleted)
      | r => r := by
  rw [prune_loop, if_neg hlen, hfind]

/-- Main invariant of the pruning loop: if the kept edition's content occurs
in the state, the loop (with fuel equal to the state size) terminates with
exactly that edition surviving; and when the occurrence is unique, none of
the deleted records carries the kept content. -/
theorem prune_ok_of_mem (d : EditionData) :
    ∀ (n : Nat) (state : List EditionData), state.length = n → d ∈ state →
    ∃ dels,
      prune_loop ⟨1, d.name, d.description, d.size⟩ n state = .ok [d] dels ∧
      (state.count d = 1 → ∀ c ∈ dels, recData c ≠ d) := by
  intro n
  induction n with
  | zero =>
    intro state hlen hmem
    rw [List.length_eq_zero] at hlen
    subst hlen
    exact absurd hmem (List.not_mem_nil d)
  | succ m ih =>
    intro state hlen hmem
    cases state with
    | nil => simp at hlen
    | cons e rest =>
      cases rest with
      | nil =>
        have he : e = d := by
          have h := hmem
          simp at h
          exact h.symm
        subst he
        refine ⟨[], prune_loop_done _ _ _ (by simp [list_wim_indexes_length]), ?_⟩
        intro _ c hc
        exact absurd hc (List.not_mem_nil c)
      | cons f rest' =>
        have hlen2 : (list_wim_indexes (e :: f :: rest')).length ≠ 1 := by
          simp [list_wim_indexes_length]
        have hm : m = rest'.length + 1 := by
          simp at hlen
          omega
        by_cases he : e = d
        · -- the kept edition is first: the loop skips it and deletes the
          -- record at index 2
          subst he
          have hlen' : (e :: rest').length = m := by simp [hm]
          obtain ⟨dels, hok, hpure⟩ := ih (e :: rest') hlen' (List.mem_cons_self e rest')
          have hstep := prune_loop_step ⟨1, e.name, e.description, e.size⟩ m _ hlen2
            ⟨2, f.name, f.description, f.size⟩ (find_keep_head e f rest')
          have hdel : delete_wim_index (e :: f :: rest') 2 = e :: rest' := by
            simpa [delete_wim_index] using delete_at_two e f rest'
          refine ⟨⟨2, f.name, f.description, f.size⟩ :: dels, ?_, ?_⟩
          · rw [hstep, hdel, hok]
          · intro hcount c hc
            rw [List.count_cons_self] at hcount
            have hnot : e ∉ f :: rest' := List.count_eq_zero.mp (by omega)
            have hfe : f ≠ e := fun h => hnot (h ▸ List.mem_cons_self f rest')
            have hrest : e ∉ rest' := fun h => hnot (List.mem_cons_of_mem f h)
            have hcount' : (e :: rest').count e = 1 := by
              rw [List.count_cons_self, List.count_eq_zero.mpr hrest]
            rcases List.mem_cons.mp hc with hcand | hcand
            · subst hcand
              exact hfe
            · exact hpure hcount' c hcand
        · -- a non-kept edition is first: the loop deletes index 1
          have hmem' : d ∈ f :: rest' := by
            rcases List.mem_cons.mp hmem with h1 | h1
            · exact absurd h1.symm he
            · exact h1
          have hlenf : (f :: rest').length = m := by simp [hm]
          obtain ⟨dels, hok, hpure⟩ := ih (f :: rest') hlenf hmem'
          have hstep := prune_loop_step ⟨1, d.name, d.description, d.size⟩ m _ hlen2
            ⟨1, e.name, e.description, e.size⟩ (find_ne_head _ he)
          have hdel : delete_wim_index (e :: f :: rest') 1 = f :: rest' := by
            simpa [delete_wim_index] using delete_at_one e (f :: rest')
          refine ⟨⟨1, e.name, e.description, e.size⟩ :: dels, ?_, ?_⟩
          · rw [hstep, hdel, hok]
          · intro hcount c hc
            have hcount' : (f :: rest').count d = 1 := by
              rwa [List.count_cons_of_ne (fun h => he h.symm)] at hcount
            rcases List.mem_cons.mp hc with hcand | hcand
            · subst hcand
              exact he
            · exact hpure hcount' c hcand

/-- When the kept edition's content occurs nowhere in the state, every
iteration of the loop deletes the current first record, so the loop still
terminates, issuing `length - 1` deletions, and the last record survives. -/
theorem prune_absent (d : EditionData) :
    ∀ (n : Nat) (state : List EditionData), state.length = n → d ∉ state → state ≠ [] →
    ∃ l dels,
      prune_loop ⟨1, d.name, d.description, d.size⟩ n state = .ok [l] dels ∧
      state.getLast? = some l ∧ dels.length = state.length - 1 := by
  intro n
  induction n with
  | zero =>
    intro state hlen _ hne
    rw [List.length_eq_zero] at hlen
    exact absurd hlen hne
  | succ m ih =>
    intro state hlen hnot hne
    cases state with
    | nil => simp at hlen
    | cons e rest =>
      cases rest with
      | nil =>
        exact ⟨e, [], prune_loop_done _ _ _ (by simp [list_wim_indexes_length]),
          by simp, by simp⟩
      | cons f rest' =>
        have hlen2 : (list_wim_indexes (e :: f :: rest')).length ≠ 1 := by
          simp [list_wim_indexes_length]
        have he : e ≠ d := fun h => hnot (List.mem_cons.mpr (Or.inl h.symm))
        have hnot' : d ∉ f :: rest' := fun h => hnot (List.mem_cons_of_mem e h)
        have hm : (f :: rest').length = m := by
          simp at hlen ⊢
          omega
        obtain ⟨l, dels, hok, hlast, hcnt⟩ := ih (f :: rest') hm hnot' (by simp)
        have hstep := prune_loop_step ⟨1, d.name, d.description, d.size⟩ m _ hlen2
          ⟨1, e.name, e.description, e.size⟩ (find_ne_head _ he)
        have hdel : delete_wim_index (e :: f :: rest') 1 = f :: rest' := by
          simpa [delete_wim_index] using delete_at_one e (f :: rest')
        refine ⟨l, ⟨1, e.name, e.description, e.size⟩ :: dels, ?_, ?_, ?_⟩
        · rw [hstep, hdel, hok]
        · rw [List.getLast?_cons_cons]
          exact hlast
        · simp at hcnt ⊢
          omega

/-! ## Claim theorems about the Edition Pruner -/

/-- C2 (amended): if the initial state contains exactly one edition whose
full content (Name, Description, Size) matches the keep record — the
comparison `delete_other_editions` actually performs, via Python dict
equality, once it has rewritten the record's Index to "1" — then no
iteration deletes that edition, the loop terminates, the sole survivor is
that edition, and its final listing is the record re-indexed to 1.  (The
claim's (name, size)-only comparison is refuted by
`delete_other_editions_name_size_counterexample`.) -/
theorem delete_other_editions_preserves_keep (state : List EditionData) (r : WimRecord)
    (h : state.count (recData r) = 1) :
    ∃ dels,
      (delete_other_editions state r).1 = .ok [recData r] dels ∧
      list_wim_indexes [recData r] = [⟨1, r.Name, r.Description, r.Size⟩] ∧
      ∀ c ∈ dels, recData c ≠ recData r := by
  have hmem : recData r ∈ state := List.count_pos_iff.mp (by omega)
  obtain ⟨dels, hok, hpure⟩ := prune_ok_of_mem (recData r) state.length state rfl hmem
  exact ⟨dels, hok, rfl, hpure h⟩

theorem delete_other_editions_preserves_keep_witness :
    ∃ dels,
      (delete_other_editions [⟨"A", "a", "1"⟩, ⟨"B", "b", "2"⟩, ⟨"C", "c", "3"⟩]
          ⟨2, "B", "b", "2"⟩).1 = .ok [⟨"B", "b", "2"⟩] dels ∧
      list_wim_indexes [⟨"B", "b", "2"⟩] = [⟨1, "B", "b", "2"⟩] ∧
      ∀ c ∈ dels, recData c ≠ ⟨"B", "b", "2"⟩ :=
  delete_other_editions_preserves_keep _ ⟨2, "B", "b", "2"⟩ (by decide)

/-- C2 (counterexample): a listing containing a record that matches the keep
argument by (Name, Size) but not by Description: the loop's full-dictionary
comparison treats that record as a deletion candidate, deletes it on the
first iteration, and the sole survivor's name differs from the keep name. -/
theorem delete_other_editions_name_size_counterexample :
    (delete_other_editions [⟨"B", "d2", "2"⟩, ⟨"C", "dc", "3"⟩] ⟨2, "B", "d1", "2"⟩).1 =
      .ok [⟨"C", "dc", "3"⟩] [⟨1, "B", "d2", "2"⟩] ∧
    (⟨1, "B", "d2", "2"⟩ : WimRecord).Name = (⟨2, "B", "d1", "2"⟩ : WimRecord).Name ∧
    (⟨1, "B", "d2", "2"⟩ : WimRecord).Size = (⟨2, "B", "d1", "2"⟩ : WimRecord).Size ∧
    ("C" : String) ≠ "B" := by decide

/-- C3 (counterexample): with the keep edition absent from the initial
listing — no record matches it even by (name, size) — `delete_other_editions`
does not fail before destructive action: it issues a deletion (of the first
record) and terminates normally with the last record surviving. -/
theorem delete_other_editions_no_guard_counterexample :
    (∀ e ∈ ([⟨"A", "a", "1"⟩, ⟨"C", "c", "3"⟩] : List EditionData),
        e.name ≠ "B" ∨ e.size ≠ "2") ∧
    (delete_other_editions [⟨"A", "a", "1"⟩, ⟨"C", "c", "3"⟩] ⟨2, "B", "b", "2"⟩).1 =
      .ok [⟨"C", "c", "3"⟩] [⟨1, "A", "a", "1"⟩] := by decide

/-- C3 (amended): `delete_other_editions` contains no absence check at all.
If the keep edition's content is absent from a nonempty initial listing, the
loop proceeds destructively — it deletes `length - 1` records (one per
iteration, always the current first record) and the last record survives —
rather than failing pre-destructively; the raise for an unresolved selection
lives in the caller `select_edition` instead.  If the keep edition is
present in the initial listing, the loop terminates with it as sole
survivor. -/
theorem delete_other_editions_termination_no_guard (state : List EditionData)
    (r : WimRecord) :
    (recData r ∉ state → state ≠ [] →
      ∃ l dels, (delete_other_editions state r).1 = .ok [l] dels ∧
        state.getLast? = some l ∧ dels.length = state.length - 1) ∧
    (recData r ∈ state →
      ∃ dels, (delete_other_editions state r).1 = .ok [recData r] dels) := by
  constructor
  · intro habs hne
    obtain ⟨l, dels, hok, hlast, hcnt⟩ :=
      prune_absent (recData r) state.length state rfl habs hne
    exact ⟨l, dels, hok, hlast, hcnt⟩
  · intro hmem
    obtain ⟨dels, hok, _⟩ := prune_ok_of_mem (recData r) state.length state rfl hmem
    exact ⟨dels, hok⟩

theorem delete_other_editions_termination_no_guard_witness :
    (∃ l dels,
        (delete_other_editions [⟨"A", "a", "1"⟩, ⟨"C", "c", "3"⟩] ⟨2, "B", "b", "2"⟩).1 =
          .ok [l] dels ∧
        ([⟨"A", "a", "1"⟩, ⟨"C", "c", "3"⟩] : List EditionData).getLast? = some l ∧
        dels.length = 2 - 1) ∧
    (∃ dels,
        (delete_other_editions [⟨"A", "a", "1"⟩, ⟨"B", "b", "2"⟩] ⟨7, "B", "b", "2"⟩).1 =
          .ok [⟨"B", "b", "2"⟩] dels) :=
  ⟨(delete_other_editions_termination_no_guard _ ⟨2, "B", "b", "2"⟩).1 (by decide) (by decide),
   (delete_other_editions_termination_no_guard _ ⟨7, "B", "b", "2"⟩).2 (by decide)⟩

/-- C8: once the listing has exactly one record, a (repeat) call of
`delete_other_editions` performs zero deletions and leaves the edition state
— hence the listing — unchanged, for any keep record. -/
theorem delete_other_editions_idempotent_singleton (state : List EditionData)
    (keep : WimRecord) (h : state.length = 1) :
    delete_other_editions state keep = (.ok state [], { keep with Index := 1 }) := by
  have h1 : (list_wim_indexes state).length = 1 := by
    rw [list_wim_indexes_length, h]
  simp only [delete_other_editions, h, prune_loop_done _ _ _ h1]

theorem delete_other_editions_idempotent_singleton_witness :
    delete_other_editions [⟨"B", "b", "2"⟩] ⟨5, "X", "x", "9"⟩ =
      (.ok [⟨"B", "b", "2"⟩] [], ⟨1, "X", "x", "9"⟩) :=
  delete_other_editions_idempotent_singleton _ _ (by decide)

/-- C9: `delete_other_editions` mutates its `edition_to_keep` argument
before the loop runs: the caller-visible record has its Index overwritten
with 1, every other key unchanged, the loop is run with exactly that mutated
record, and whenever the argument's Index was not already 1 the record the
caller holds afterwards differs from the one it passed in. -/
theorem delete_other_editions_mutates_argument (state : List EditionData) (r : WimRecord) :
    ((delete_other_editions state r).2.Index = 1 ∧
     (delete_other_editions state r).2.Name = r.Name ∧
     (delete_other_editions state r).2.Description = r.Description ∧
     (delete_other_editions state r).2.Size = r.Size) ∧
    (delete_other_editions state r).1 =
      prune_loop (delete_other_editions state r).2 state.length state ∧
    (r.Index ≠ 1 → (delete_other_editions state r).2 ≠ r) := by
  refine ⟨⟨rfl, rfl, rfl, rfl⟩, rfl, ?_⟩
  intro h hc
  exact h (by rw [← hc]; rfl)

theorem delete_other_editions_mutates_argument_witness :
    (((delete_other_editions [⟨"A", "a", "1"⟩] ⟨3, "A", "x", "1"⟩).2.Index = 1 ∧
      (delete_other_editions [⟨"A", "a", "1"⟩] ⟨3, "A", "x", "1"⟩).2.Name = "A" ∧
      (delete_other_editions [⟨"A", "a", "1"⟩] ⟨3, "A", "x", "1"⟩).2.Description = "x" ∧
      (delete_other_editions [⟨"A", "a", "1"⟩] ⟨3, "A", "x", "1"⟩).2.Size = "1") ∧
     (delete_other_editions [⟨"A", "a", "1"⟩] ⟨3, "A", "x", "1"⟩).1 =
       prune_loop (delete_other_editions [⟨"A", "a", "1"⟩] ⟨3, "A", "x", "1"⟩).2 1
         [⟨"A", "a", "1"⟩]) ∧
    (delete_other_editions [⟨"A", "a", "1"⟩] ⟨3, "A", "x", "1"⟩).2 ≠ ⟨3, "A", "x", "1"⟩ :=
  ⟨⟨(delete_other_editions_mutates_argument _ _).1,
    (delete_other_editions_mutates_argument _ _).2.1⟩,
   (delete_other_editions_mutates_argument _ _).2.2 (by decide)⟩

/-! ## Claim theorems about edition selection -/

/-- C10: `select_edition` resolves a selector name to the record of the last
listing entry bearing that name — the `valid_indexes` mapping built by
`display_wim_editions` keeps only the final record for each name — and that
record is the one `select_edition` hands to pruning (`none` when the name is
absent, the `ValueError` case).  In particular, with two or more records
sharing a Name, the last one wins. -/
theorem select_edition_resolves_to_last (wim_info : List WimRecord) (n : String) :
    select_edition wim_info n =
      (wim_info.filter (fun r => decide (r.Name = n))).getLast? := by
  unfold select_edition display_wim_editions
  induction wim_info using List.reverseRecOn with
  | nil => rfl
  | append_singleton l info ih =>
    rw [List.foldl_append, List.filter_append]
    simp only [List.foldl_cons, List.foldl_nil, List.filter_cons, List.filter_nil]
    by_cases hn : info.Name = n
    · subst hn
      simp [List.getLast?_concat]
    · have hn' : ¬(n = info.Name) := fun h => hn h.symm
      simp [hn, hn', ih]

/-! ## Claim theorems about the Media Provisioner -/

/-- C1 (code bug): the protected-volume guard of `prepare_usb_drive` is
plain case-sensitive string equality, so a destination that matches the
caller's home volume only up to letter case — here `"c:"` against home
volume `"C:"` — is NOT refused: the function proceeds to the destructive
repartition/format and mirror copy of that volume.  Only the exact string
is refused.  The function's own docstring ("Raises ValueError if the drive
letter matches the home drive, as this would overwrite important files")
and the spec's case-insensitive hard safety invariant both require the
refusal, since drive letters on the target platform are case-insensitive
names for the same volume. -/
theorem prepare_usb_drive_case_sensitive_guard :
    "c:".toList.map Char.toLower = "C:".toList.map Char.toLower ∧
    prepare_usb_drive "C:" "win.iso" "c:" =
      Except.ok [UsbAction.format_drive ":", UsbAction.extract_iso_to "win.iso" "c:"] ∧
    prepare_usb_drive "C:" "win.iso" "C:" =
      Except.error "USB Drive cannot be C:" := by
  refine ⟨by decide, rfl, rfl⟩

/-! ## Claim theorems about container optimization -/

/-- C7: `optimize_wim_file` performs exactly, and in this order: rename the
original container aside (to `<name>.old`), export the image into the freed
original name, then delete the renamed-aside original.  Consequently, if
execution is interrupted after the rename alone, or after the export but
before the delete, the renamed-aside original file is still present. -/
theorem optimize_wim_file_order_recoverable (wim_file : String) :
    optimize_wim_file wim_file =
      [FsAction.rename wim_file (wim_file ++ ".old"),
       FsAction.exportImage (wim_file ++ ".old") wim_file,
       FsAction.remove (wim_file ++ ".old")] ∧
    (wim_file ++ ".old") ∈ runFs [wim_file] ((optimize_wim_file wim_file).take 1) ∧
    (wim_file ++ ".old") ∈ runFs [wim_file] ((optimize_wim_file wim_file).take 2) := by
  refine ⟨rfl, ?_, ?_⟩ <;> simp [optimize_wim_file, runFs, applyFs]

/-! ## Claim theorems about the pipeline and the mount lifecycle -/

/-- C4 (counterexample): on a run where the underlying DISM mount reports no
success signal, `mount_wim` still returns the mount point — there is no
`MountFailure` path — and the pipeline proceeds to CUSTOMIZE (modifying the
path) and even completes without error. -/
theorem mount_wim_no_failure_counterexample :
    mount_wim "mnt" false = Except.ok "mnt" ∧
    PStep.customize ∈ (patch_wim_run 1 ⟨false, true, true, true⟩).1 ∧
    (patch_wim_run 1 ⟨false, true, true, true⟩).2 = false := by
  exact ⟨rfl, by decide, by decide⟩

/-- C4 (amended): `mount_wim` performs no success check: it returns the
mount point unconditionally, whatever the mount operation reports, and the
pipeline's whole behaviour is independent of the mount success signal — it
proceeds to modify the mounted path regardless. -/
theorem mount_wim_ignores_success_signal (path : String) (s : Bool) (len : Nat)
    (o : StepOutcomes) (b b' : Bool) :
    mount_wim path s = Except.ok path ∧
    patch_wim_run len { o with mount_dism_success := b } =
      patch_wim_run len { o with mount_dism_success := b' } := by
  refine ⟨rfl, ?_⟩
  cases o
  rfl

/-- C5: whenever a `patch_wim` run reaches MOUNT, its trace contains UNMOUNT
— the `try/finally` drives `unmount_wim` (which always passes `/commit`) on
every exit path, including the runs where CUSTOMIZE or OPTIMIZE_IMAGE fails,
in which case the error still propagates out of the pipeline afterwards. -/
theorem patch_wim_releases_mount_on_all_paths (len : Nat) (o : StepOutcomes) (p : String)
    (h : PStep.mount ∈ (patch_wim_run len o).1) :
    PStep.unmount ∈ (patch_wim_run len o).1 ∧
    ((o.customize_ok = false ∨ o.optimize_image_ok = false) →
      (patch_wim_run len o).2 = true) ∧
    "/commit" ∈ unmount_wim_args p := by
  cases o with
  | mk md se cu oi =>
    cases se <;> cases cu <;> cases oi <;>
      by_cases hl : 1 ≤ len <;>
      simp_all [patch_wim_run, unmount_wim_args]

/-! ## Lemmas about the metadata parser -/

theorem splitOnChar_of_not_mem (sep : Char) (s : Chars) (h : sep ∉ s) :
    splitOnChar sep s = [s] := by
  induction s with
  | nil => rfl
  | cons c rest ih =>
    have hc : ¬(c = sep) := fun hcc => h (List.mem_cons.mpr (Or.inl hcc.symm))
    rw [splitOnChar, if_neg hc, ih (fun hm => h (List.mem_cons_of_mem c hm))]

theorem splitOnChar_append (sep : Char) (a b : Chars) (h : sep ∉ a) :
    splitOnChar sep (a ++ sep :: b) = a :: splitOnChar sep b := by
  induction a with
  | nil =>
    simp only [List.nil_append]
    rw [splitOnChar, if_pos rfl]
  | cons c a' ih =>
    have hc : ¬(c = sep) := fun hcc => h (List.mem_cons.mpr (Or.inl hcc.symm))
    rw [List.cons_append, splitOnChar, if_neg hc,
      ih (fun hm => h (List.mem_cons_of_mem c hm))]

theorem splitOnChar_joinSep (sep : Char) (pieces : List Chars) (hne : pieces ≠ [])
    (h : ∀ p ∈ pieces, sep ∉ p) :
    splitOnChar sep (joinSep [sep] pieces) = pieces := by
  induction pieces with
  | nil => exact absurd rfl hne
  | cons p ps ih =>
    cases ps with
    | nil => exact splitOnChar_of_not_mem sep p (h p (List.mem_cons_self p []))
    | cons q ps' =>
      rw [joinSep, List.append_assoc,
        show ([sep] ++ joinSep [sep] (q :: ps') : Chars) =
          sep :: joinSep [sep] (q :: ps') from rfl,
        splitOnChar_append sep p _ (h p (List.mem_cons_self p _)),
        ih (by simp) (fun r hr => h r (List.mem_cons_of_mem p hr))]

theorem splitOnNlNl_of_hasNlNl_false (s : Chars) (h : hasNlNl s = false) :
    splitOnNlNl s = [s] := by
  induction s with
  | nil => rfl
  | cons c rest ih =>
    cases rest with
    | nil => rfl
    | cons d rest' =>
      rw [hasNlNl] at h
      by_cases hc : c = '\n' ∧ d = '\n'
      · rw [if_pos hc] at h
        exact absurd h (by simp)
      · rw [if_neg hc] at h
        rw [splitOnNlNl, if_neg hc, ih h]

theorem splitOnNlNl_boundary (p t : Chars) (h : hasNlNl p = false)
    (hl : p.getLast? ≠ some '\n') :
    splitOnNlNl (p ++ '\n' :: '\n' :: t) = p :: splitOnNlNl t := by
  induction p with
  | nil =>
    rw [List.nil_append, splitOnNlNl, if_pos ⟨rfl, rfl⟩]
  | cons c p' ih =>
    cases p' with
    | nil =>
      have hc : ¬(c = '\n' ∧ ('\n' : Char) = '\n') := by
        intro hcc
        apply hl
        simp [hcc.1]
      rw [List.cons_append, List.nil_append, splitOnNlNl, if_neg hc,
        show splitOnNlNl ('\n' :: '\n' :: t) = [] :: splitOnNlNl t from by
          rw [splitOnNlNl, if_pos ⟨rfl, rfl⟩]]
    | cons d p'' =>
      rw [hasNlNl] at h
      have hc : ¬(c = '\n' ∧ d = '\n') := by
        intro hcc
        rw [if_pos hcc] at h
        exact absurd h (by simp)
      rw [if_neg hc] at h
      have hl' : (d :: p'').getLast? ≠ some '\n' := by
        rw [← List.getLast?_cons_cons]
        exact hl
      rw [List.cons_append,
        show ((d :: p'') ++ '\n' :: '\n' :: t : Chars) =
          d :: (p'' ++ '\n' :: '\n' :: t) from rfl,
        splitOnNlNl, if_neg hc]
      have ih' := ih h hl'
      rw [show ((d :: p'') ++ '\n' :: '\n' :: t : Chars) =
        d :: (p'' ++ '\n' :: '\n' :: t) from rfl] at ih'
      rw [ih']

theorem splitOnNlNl_joinSep (pieces : List Chars) (hne : pieces ≠ [])
    (h : ∀ p ∈ pieces, hasNlNl p = false)
    (hl : ∀ p ∈ pieces.dropLast, p.getLast? ≠ some '\n') :
    splitOnNlNl (joinSep ['\n', '\n'] pieces) = pieces := by
  induction pieces with
  | nil => exact absurd rfl hne
  | cons p ps ih =>
    cases ps with
    | nil => exact splitOnNlNl_of_hasNlNl_false p (h p (List.mem_cons_self p []))
    | cons q ps' =>
      have hdl : (p :: q :: ps').dropLast = p :: (q :: ps').dropLast := rfl
      rw [joinSep, List.append_assoc,
        show (['\n', '\n'] ++ joinSep ['\n', '\n'] (q :: ps') : Chars) =
          '\n' :: '\n' :: joinSep ['\n', '\n'] (q :: ps') from rfl,
        splitOnNlNl_boundary p _ (h p (List.mem_cons_self p _))
          (hl p (by rw [hdl]; exact List.mem_cons_self p _)),
        ih (by simp) (fun r hr => h r (List.mem_cons_of_mem p hr))
          (fun r hr => hl r (by rw [hdl]; exact List.mem_cons_of_mem p hr))]

theorem hasNlNl_append_left (a b : Chars) (h : '\n' ∉ a) :
    hasNlNl (a ++ b) = hasNlNl b := by
  induction a with
  | nil => rfl
  | cons c a' ih =>
    have hc : c ≠ '\n' := fun hcc => h (List.mem_cons.mpr (Or.inl hcc.symm))
    have h' : '\n' ∉ a' := fun hm => h (List.mem_cons_of_mem c hm)
    cases a' with
    | nil =>
      cases b with
      | nil => rfl
      | cons e b' =>
        rw [List.cons_append, List.nil_append, hasNlNl, if_neg (fun hcc => hc hcc.1)]
    | cons d a'' =>
      rw [List.cons_append,
        show ((d :: a'') ++ b : Chars) = d :: (a'' ++ b) from rfl,
        hasNlNl, if_neg (fun hcc => hc hcc.1)]
      have hih := ih h'
      rw [show ((d :: a'') ++ b : Chars) = d :: (a'' ++ b) from rfl] at hih
      rw [hih]

theorem hasNlNl_of_not_mem (s : Chars) (h : '\n' ∉ s) : hasNlNl s = false := by
  have hs := hasNlNl_append_left s [] h
  simpa using hs

theorem getLast?_ne_of_not_mem (s : Chars) (h : '\n' ∉ s) :
    s.getLast? ≠ some '\n' := by
  intro hc
  obtain ⟨ys, hys⟩ := List.getLast?_eq_some_iff.mp hc
  apply h
  rw [hys]
  simp

theorem joinSep_head? (sep : Chars) (q : Chars) (ps : List Chars) (hq : q ≠ []) :
    (joinSep sep (q :: ps)).head? = q.head? := by
  cases q with
  | nil => exact absurd rfl hq
  | cons c q' => cases ps <;> rfl

theorem joinSep_ne_nil (sep : Chars) (q : Chars) (ps : List Chars) (hq : q ≠ []) :
    joinSep sep (q :: ps) ≠ [] := by
  cases q with
  | nil => exact absurd rfl hq
  | cons c q' => cases ps <;> simp [joinSep]

/-- A block built from nonempty newline-free lines contains no blank-line
delimiter and does not end in a newline. -/
theorem joinSep_lines_wf (lines : List Chars) (hne : lines ≠ [])
    (h : ∀ l ∈ lines, l ≠ [] ∧ '\n' ∉ l) :
    hasNlNl (joinSep ['\n'] lines) = false ∧
    (joinSep ['\n'] lines).getLast? ≠ some '\n' := by
  induction lines with
  | nil => exact absurd rfl hne
  | cons l ls ih =>
    cases ls with
    | nil =>
      exact ⟨hasNlNl_of_not_mem l (h l (List.mem_cons_self l [])).2,
        getLast?_ne_of_not_mem l (h l (List.mem_cons_self l [])).2⟩
    | cons m ls' =>
      obtain ⟨ih1, ih2⟩ := ih (by simp) (fun r hr => h r (List.mem_cons_of_mem l hr))
      have hm : m ≠ [] := (h m (List.mem_cons_of_mem l (List.mem_cons_self m ls'))).1
      have hmn : '\n' ∉ m := (h m (List.mem_cons_of_mem l (List.mem_cons_self m ls'))).2
      have hJne : joinSep ['\n'] (m :: ls') ≠ [] := joinSep_ne_nil _ m ls' hm
      constructor
      · rw [joinSep, List.append_assoc,
          show (['\n'] ++ joinSep ['\n'] (m :: ls') : Chars) =
            '\n' :: joinSep ['\n'] (m :: ls') from rfl,
          hasNlNl_append_left _ _ (h l (List.mem_cons_self l _)).2]
        rcases hJ : joinSep ['\n'] (m :: ls') with _ | ⟨j, J'⟩
        · exact absurd hJ hJne
        · rw [hasNlNl]
          have hj : j ≠ '\n' := by
            have hh := joinSep_head? ['\n'] m ls' hm
            rw [hJ] at hh
            intro hje
            apply hmn
            cases m with
            | nil => exact absurd rfl hm
            | cons c m' =>
              have hjc : j = c := by simpa using hh
              exact List.mem_cons.mpr (Or.inl (hjc.symm.trans hje).symm)
          rw [if_neg (fun hcc => hj hcc.2), ← hJ]
          exact ih1
      · rw [joinSep, List.append_assoc, List.getLast?_append, List.getLast?_append]
        rcases hx : (joinSep ['\n'] (m :: ls')).getLast? with _ | x
        · rw [List.getLast?_eq_none_iff] at hx
          exact absurd hx hJne
        · rw [hx] at ih2
          simpa using ih2

theorem mk_line_ne_nil (k v : Chars) : mk_line k v ≠ [] := by
  unfold mk_line
  cases k <;> simp

theorem mk_line_no_nl (k v : Chars) (hk : '\n' ∉ k) (hv : '\n' ∉ v) :
    '\n' ∉ mk_line k v := by
  unfold mk_line
  intro hm
  rcases List.mem_append.mp hm with h1 | h1
  · exact hk h1
  · rcases List.mem_cons.mp h1 with h2 | h2
    · exact absurd h2 (by decide)
    · exact hv h2

/-- One line parses back to its trimmed key/value pair. -/
theorem parse_kv_mk_line (k v : Chars) (hk : ':' ∉ k) (hv : ':' ∉ v) :
    parse_kv (mk_line k v) = some (stripChars k, stripChars v) := by
  unfold parse_kv mk_line
  rw [splitOnChar_append ':' k v hk, splitOnChar_of_not_mem ':' v hv]
  rfl

theorem parse_lines_mk (kvs : List (Chars × Chars))
    (h : ∀ kv ∈ kvs, ':' ∉ kv.1 ∧ ':' ∉ kv.2) :
    parse_lines (kvs.map fun kv => mk_line kv.1 kv.2) =
      some (kvs.map fun kv => (stripChars kv.1, stripChars kv.2)) := by
  induction kvs with
  | nil => rfl
  | cons kv rest ih =>
    rw [List.map_cons, List.map_cons, parse_lines,
      parse_kv_mk_line kv.1 kv.2 (h kv (List.mem_cons_self kv rest)).1
        (h kv (List.mem_cons_self kv rest)).2,
      ih (fun r hr => h r (List.mem_cons_of_mem kv hr))]

/-- One block parses back to its record of trimmed key/value pairs. -/
theorem parse_block_mk_block (kvs : List (Chars × Chars)) (hne : kvs ≠ [])
    (h : ∀ kv ∈ kvs, '\n' ∉ kv.1 ∧ ':' ∉ kv.1 ∧ '\n' ∉ kv.2 ∧ ':' ∉ kv.2) :
    parse_block (mk_block kvs) =
      some (kvs.map fun kv => (stripChars kv.1, stripChars kv.2)) := by
  unfold parse_block mk_block
  have hlines : ∀ l ∈ kvs.map (fun kv => mk_line kv.1 kv.2), '\n' ∉ l := by
    intro l hl
    obtain ⟨kv, hkv, rfl⟩ := List.mem_map.mp hl
    exact mk_line_no_nl kv.1 kv.2 (h kv hkv).1 (h kv hkv).2.2.1
  have hmapne : kvs.map (fun kv => mk_line kv.1 kv.2) ≠ [] := by
    cases kvs with
    | nil => exact absurd rfl hne
    | cons a l => simp
  rw [splitOnChar_joinSep '\n' _ hmapne hlines]
  exact parse_lines_mk kvs (fun kv hkv => ⟨(h kv hkv).2.1, (h kv hkv).2.2.2⟩)

theorem mk_block_wf (kvs : List (Chars × Chars)) (hne : kvs ≠ [])
    (h : ∀ kv ∈ kvs, '\n' ∉ kv.1 ∧ ':' ∉ kv.1 ∧ '\n' ∉ kv.2 ∧ ':' ∉ kv.2) :
    hasNlNl (mk_block kvs) = false ∧ (mk_block kvs).getLast? ≠ some '\n' := by
  unfold mk_block
  apply joinSep_lines_wf
  · cases kvs with
    | nil => exact absurd rfl hne
    | cons a l => simp
  · intro l hl
    obtain ⟨kv, hkv, rfl⟩ := List.mem_map.mp hl
    exact ⟨mk_line_ne_nil kv.1 kv.2,
      mk_line_no_nl kv.1 kv.2 (h kv hkv).1 (h kv hkv).2.2.1⟩

theorem parse_blocks_mk (blocks : List (List (Chars × Chars)))
    (h : ∀ b ∈ blocks, b ≠ [] ∧ ∀ kv ∈ b,
      '\n' ∉ kv.1 ∧ ':' ∉ kv.1 ∧ '\n' ∉ kv.2 ∧ ':' ∉ kv.2) :
    parse_blocks (blocks.map mk_block) =
      some (blocks.map fun b => b.map fun kv => (stripChars kv.1, stripChars kv.2)) := by
  induction blocks with
  | nil => rfl
  | cons b rest ih =>
    rw [List.map_cons, List.map_cons, parse_blocks,
      parse_block_mk_block b (h b (List.mem_cons_self b rest)).1
        (h b (List.mem_cons_self b rest)).2,
      ih (fun r hr => h r (List.mem_cons_of_mem b hr))]

/-- Splitting a well-formed DISM output on blank lines recovers exactly the
header pieces, the blocks, and the footer. -/
theorem splitOnNlNl_mk_dism_output (h1 h2 footer : Chars)
    (blocks : List (List (Chars × Chars)))
    (hh1 : hasNlNl h1 = false) (hh1l : h1.getLast? ≠ some '\n')
    (hh2 : hasNlNl h2 = false) (hh2l : h2.getLast? ≠ some '\n')
    (hf : hasNlNl footer = false)
    (hb : ∀ b ∈ blocks, b ≠ [] ∧ ∀ kv ∈ b,
      '\n' ∉ kv.1 ∧ ':' ∉ kv.1 ∧ '\n' ∉ kv.2 ∧ ':' ∉ kv.2) :
    splitOnNlNl (mk_dism_output h1 h2 blocks footer) =
      [h1, h2] ++ blocks.map mk_block ++ [footer] := by
  unfold mk_dism_output
  apply splitOnNlNl_joinSep
  · simp
  · intro p hp
    rcases List.mem_append.mp hp with hp1 | hp1
    · rcases List.mem_append.mp hp1 with hp2 | hp2
      · rcases List.mem_cons.mp hp2 with hp3 | hp3
        · rw [hp3]; exact hh1
        · rw [List.mem_singleton.mp hp3]; exact hh2
      · obtain ⟨b, hbm, rfl⟩ := List.mem_map.mp hp2
        exact (mk_block_wf b (hb b hbm).1 (hb b hbm).2).1
    · rw [List.mem_singleton.mp hp1]; exact hf
  · intro p hp
    rw [List.dropLast_concat] at hp
    rcases List.mem_append.mp hp with hp1 | hp1
    · rcases List.mem_cons.mp hp1 with hp3 | hp3
      · rw [hp3]; exact hh1l
      · rw [List.mem_singleton.mp hp3]; exact hh2l
    · obtain ⟨b, hbm, rfl⟩ := List.mem_map.mp hp1
      exact (mk_block_wf b (hb b hbm).1 (hb b hbm).2).2

/-- The whole parser on a well-formed DISM output: the two header pieces and
the footer are discarded and each block becomes its record of trimmed pairs. -/
theorem list_wim_indexes_parse_mk (h1 h2 footer : Chars)
    (blocks : List (List (Chars × Chars)))
    (hh1 : hasNlNl h1 = false) (hh1l : h1.getLast? ≠ some '\n')
    (hh2 : hasNlNl h2 = false) (hh2l : h2.getLast? ≠ some '\n')
    (hf : hasNlNl footer = false)
    (hb : ∀ b ∈ blocks, b ≠ [] ∧ ∀ kv ∈ b,
      '\n' ∉ kv.1 ∧ ':' ∉ kv.1 ∧ '\n' ∉ kv.2 ∧ ':' ∉ kv.2) :
    list_wim_indexes_parse (mk_dism_output h1 h2 blocks footer) =
      some (blocks.map fun b => b.map fun kv => (stripChars kv.1, stripChars kv.2)) := by
  unfold list_wim_indexes_parse
  rw [splitOnNlNl_mk_dism_output h1 h2 footer blocks hh1 hh1l hh2 hh2l hf hb]
  rw [show ([h1, h2] ++ blocks.map mk_block ++ [footer] : List Chars) =
    h1 :: h2 :: (blocks.map mk_block ++ [footer]) from by simp]
  rw [List.drop_succ_cons, List.drop_succ_cons, List.drop_zero, List.dropLast_concat]
  exact parse_blocks_mk blocks hb

/-- C6: for every well-formed metadata listing of N edition blocks — two
header-noise pieces, blank-line-delimited blocks each consisting of
`key : value` lines, and a footer piece — the parsing step of
`list_wim_indexes` discards the first two pieces and the last one, trims
every key and value of surrounding whitespace, and returns exactly N
records in listing order; when block i carries an Index field denoting the
decimal value i+1 (as DISM numbers its listing), the returned records bear
distinct indexes 1..N in listing order. -/
theorem list_wim_indexes_parse_wellformed (h1 h2 footer : Chars)
    (blocks : List (List (Chars × Chars)))
    (hh1 : hasNlNl h1 = false) (hh1l : h1.getLast? ≠ some '\n')
    (hh2 : hasNlNl h2 = false) (hh2l : h2.getLast? ≠ some '\n')
    (hf : hasNlNl footer = false)
    (hb : ∀ b ∈ blocks, b ≠ [] ∧ ∀ kv ∈ b,
      '\n' ∉ kv.1 ∧ ':' ∉ kv.1 ∧ '\n' ∉ kv.2 ∧ ':' ∉ kv.2)
    (hidx : ∀ i (hi : i < blocks.length),
      (dictGet ((blocks.get ⟨i, hi⟩).map fun kv => (stripChars kv.1, stripChars kv.2))
          "Index".toList).bind decimalValue = some (i + 1)) :
    ∃ records,
      list_wim_indexes_parse (mk_dism_output h1 h2 blocks footer) = some records ∧
      records = blocks.map (fun b => b.map fun kv => (stripChars kv.1, stripChars kv.2)) ∧
      records.length = blocks.length ∧
      records.map (fun r => (dictGet r "Index".toList).bind decimalValue) =
        (List.range blocks.length).map (fun i => some (i + 1)) ∧
      (records.map (fun r => (dictGet r "Index".toList).bind decimalValue)).Nodup := by
  have hmap : ((blocks.map fun b => b.map fun kv => (stripChars kv.1, stripChars kv.2)).map
      (fun r => (dictGet r "Index".toList).bind decimalValue)) =
      (List.range blocks.length).map (fun i => some (i + 1)) := by
    apply List.ext_getElem
    · simp
    · intro i hi1 hi2
      rw [List.getElem_map, List.getElem_map, List.getElem_map, List.getElem_range]
      have hlen : i < blocks.length := by simpa using hi2
      have hx := hidx i hlen
      simpa using hx
  refine ⟨_, list_wim_indexes_parse_mk h1 h2 footer blocks hh1 hh1l hh2 hh2l hf hb,
    rfl, by simp, hmap, ?_⟩
  rw [hmap]
  refine List.Nodup.map ?_ (List.nodup_range _)
  intro a b hab
  have hab' := Option.some.inj hab
  omega

theorem list_wim_indexes_parse_wellformed_witness :
    ∃ records,
      list_wim_indexes_parse (mk_dism_output "Tool v1".toList "Details for image".toList
          [[("Index ".toList, " 1".toList), ("Name ".toList, " Win Home".toList)],
           [("Index ".toList, " 2".toList), ("Name ".toList, " Win Pro".toList)]]
          "The operation completed successfully.".toList) = some records ∧
      records =
        ([[("Index ".toList, " 1".toList), ("Name ".toList, " Win Home".toList)],
          [("Index ".toList, " 2".toList), ("Name ".toList, " Win Pro".toList)]].map
          (fun b => b.map fun kv => (stripChars kv.1, stripChars kv.2))) ∧
      records.length =
        ([[("Index ".toList, " 1".toList), ("Name ".toList, " Win Home".toList)],
          [("Index ".toList, " 2".toList), ("Name ".toList, " Win Pro".toList)]] :
          List (List (Chars × Chars))).length ∧
      records.map (fun r => (dictGet r "Index".toList).bind decimalValue) =
        (List.range
          ([[("Index ".toList, " 1".toList), ("Name ".toList, " Win Home".toList)],
            [("Index ".toList, " 2".toList), ("Name ".toList, " Win Pro".toList)]] :
            List (List (Chars × Chars))).length).map (fun i => some (i + 1)) ∧
      (records.map (fun r => (dictGet r "Index".toList).bind decimalValue)).Nodup :=
  list_wim_indexes_parse_wellformed _ _ _ _ (by decide) (by decide) (by decide)
    (by decide) (by decide) (by decide) (by decide)

theorem patch_wim_releases_mount_witness :
    PStep.mount ∈ (patch_wim_run 1 ⟨true, true, false, true⟩).1 ∧
    PStep.unmount ∈ (patch_wim_run 1 ⟨true, true, false, true⟩).1 ∧
    (((⟨true, true, false, true⟩ : StepOutcomes).customize_ok = false ∨
      (⟨true, true, false, true⟩ : StepOutcomes).optimize_image_ok = false) →
      (patch_wim_run 1 ⟨true, true, false, true⟩).2 = true) ∧
    "/commit" ∈ unmount_wim_args "mnt" :=
  ⟨by decide,
   patch_wim_releases_mount_on_all_paths 1 ⟨true, true, false, true⟩ "mnt" (by decide)⟩

end WimPatcher
